import Mathlib

/-!
Shallow embedding of `src/git.rs` (gitlogue): a wrapper over a git
repository exposing `get_commit`, `random_commit` and the helper
`extract_metadata`.

Modelling choices (external libraries are modelled as explicit data):
* An `Oid` is modelled by its full canonical 40-hex string form, so
  `Oid::to_string` is the identity.
* The `git2` primitives used by the code become fields of
  `GitRepository`:
  - `find_commit : String → Option Commit` models
    `Repository::find_commit` (`none` = lookup failure);
  - `revwalk_from_head : Option (List (Option String))` models
    `repo.revwalk()` + `push_head()` (outer `none` = either call fails,
    i.e. the walk cannot be started) followed by iterating the walk
    (each item is a `Result<Oid>`, an `Err` item modelled as `none`,
    matching `filter_map(|oid| oid.ok())`);
  - `revparse_single : String → Option GitObject` models
    `Repository::revparse_single` (`none` = the specifier resolves to
    no object);
  - a `GitObject` carries `peel_to_commit : Option Commit`, modelling
    `Object::peel_to_commit` (`none` = the object cannot be peeled to
    a commit).
* `rand`'s `SliceRandom::choose(&mut thread_rng())` draws a uniform
  index below the slice length and returns that element (and `none`
  exactly on the empty slice); it is modelled by `slice_choose` taking
  the drawn index as an explicit parameter.
* `chrono::DateTime::from_timestamp(secs, 0)` is modelled by
  `datetime_from_timestamp`, which succeeds exactly when `secs` lies in
  chrono's representable range (timestamps of `-262144-01-01T00:00:00`
  to `+262143-12-31T23:59:59`); `Utc::now()` becomes an explicit `now`
  parameter. A `DateTime<Utc>` built this way is determined by its
  seconds value (nanoseconds are fixed to 0), so dates are modelled as
  `Int` seconds since the epoch.
* `anyhow` error contexts become the constructors of `GitError`, one
  per distinct failure site of the source.
-/

/-- A commit object as read through `git2`: its oid (canonical string
form), parent oids, author name (`None` when not valid UTF-8 / absent),
author timestamp in seconds, and message (`None` when absent / not
valid UTF-8). -/
structure Commit where
  id : String
  parents : List String
  author_name : Option String
  author_when : Int
  message : Option String
deriving DecidableEq

/-- `CommitMetadata` from `src/git.rs` lines 11-17; `date` is the
seconds-since-epoch value of the `DateTime<Utc>`. -/
structure CommitMetadata where
  hash : String
  author : String
  date : Int
  message : String
deriving DecidableEq

/-- A resolved `git2::Object`, exposing only the one operation the code
uses: peeling to a commit. -/
structure GitObject where
  peel_to_commit : Option Commit
deriving DecidableEq

/-- The `GitRepository` wrapper (lines 7-9) together with the `git2`
primitives its methods call, modelled as fields (the repository is not
mutated by any operation, so they are plain functions). -/
structure GitRepository where
  head : Option String
  find_commit : String → Option Commit
  revwalk_from_head : Option (List (Option String))
  revparse_single : String → Option GitObject

/-- One constructor per failure site of `src/git.rs`:
`CommitResolutionError` = context "Invalid commit hash or commit not
found" (line 29), `NotACommitError` = context "Object is not a commit"
(line 33), `WalkInitError` = a `?` on `revwalk()`/`push_head()`
(lines 39-40), `NoEligibleCommitsError` = the `bail!` (line 53),
`SelectionError` = context "Failed to select random commit" (line 58),
`FindCommitError` = the `?` on the final `find_commit` (line 60). -/
inductive GitError where
  | CommitResolutionError
  | NotACommitError
  | WalkInitError
  | NoEligibleCommitsError
  | SelectionError
  | FindCommitError
deriving DecidableEq

/-- Rust's `str::trim`: remove leading and trailing whitespace
characters (modelled over the string's character list; `White_Space`
is modelled by `Char.isWhitespace`, which covers the whitespace
characters occurring in commit messages). -/
def rust_trim (s : String) : String :=
  ⟨((s.data.dropWhile Char.isWhitespace).reverse.dropWhile Char.isWhitespace).reverse⟩

/-- `chrono::DateTime::from_timestamp(secs, 0)`: succeeds exactly when
`secs` is within chrono's representable range; the resulting date is
determined by `secs` (nanoseconds are 0). -/
def datetime_from_timestamp (secs : Int) : Option Int :=
  if -8334601228800 ≤ secs ∧ secs ≤ 8210266876799 then some secs else none

/-- `GitRepository::extract_metadata` (lines 64-79), with `Utc::now()`
passed in as `now`. -/
def GitRepository.extract_metadata (commit : Commit) (now : Int) : CommitMetadata :=
  { hash := commit.id
  , author := commit.author_name.getD "Unknown"
  , date := (datetime_from_timestamp commit.author_when).getD now
  , message := rust_trim (commit.message.getD "") }

/-- `GitRepository::get_commit` (lines 26-36). -/
def GitRepository.get_commit (repo : GitRepository) (hash : String) (now : Int) :
    Except GitError CommitMetadata :=
  match repo.revparse_single hash with
  | none => Except.error GitError.CommitResolutionError
  | some obj =>
    match obj.peel_to_commit with
    | none => Except.error GitError.NotACommitError
    | some commit => Except.ok (GitRepository.extract_metadata commit now)

/-- The per-oid eligibility test of the filter (lines 44-49):
`find_commit(oid).map(|c| c.parent_count() <= 1).unwrap_or(false)`. -/
def GitRepository.eligible (repo : GitRepository) (oid : String) : Bool :=
  match repo.find_commit oid with
  | some c => decide (c.parents.length ≤ 1)
  | none => false

/-- The materialized `non_merge_commits` vector (lines 42-50), as a
function of the walk's item list: drop `Err` items
(`filter_map(|oid| oid.ok())`), then keep eligible oids. -/
def GitRepository.non_merge_commits (repo : GitRepository)
    (walk : List (Option String)) : List String :=
  (walk.filterMap id).filter repo.eligible

/-- `SliceRandom::choose`: `None` on an empty slice, otherwise the
element at the uniformly drawn index (`i` is the draw; reduction mod
the length models that the drawn index is always below the length). -/
def slice_choose {α : Type} (l : List α) (i : Nat) : Option α :=
  if l.isEmpty then none else l[i % l.length]?

/-- Lines 60-61 of `random_commit`: re-resolve the chosen oid to a full
commit (`?` propagates the failure) and extract its metadata. -/
def GitRepository.find_and_extract (repo : GitRepository) (oid : String) (now : Int) :
    Except GitError CommitMetadata :=
  match repo.find_commit oid with
  | none => Except.error GitError.FindCommitError
  | some c => Except.ok (GitRepository.extract_metadata c now)

/-- `GitRepository::random_commit` (lines 38-62), with the index drawn
by `thread_rng` passed in as `rngIndex` and `Utc::now()` as `now`. -/
def GitRepository.random_commit (repo : GitRepository) (rngIndex : Nat) (now : Int) :
    Except GitError CommitMetadata :=
  match repo.revwalk_from_head with
  | none => Except.error GitError.WalkInitError
  | some walk =>
    let l := repo.non_merge_commits walk
    if l.isEmpty then Except.error GitError.NoEligibleCommitsError
    else
      match slice_choose l rngIndex with
      | none => Except.error GitError.SelectionError
      | some oid => repo.find_and_extract oid now

/-- Reachability in the commit graph: `ReachableFrom repo a b` holds
when `b` is `a` itself or an ancestor of `a` through recorded parent
links. -/
inductive GitRepository.ReachableFrom (repo : GitRepository) : String → String → Prop where
  | refl (o : String) : GitRepository.ReachableFrom repo o o
  | step (a p b : String) (c : Commit) (hfind : repo.find_commit a = some c)
      (hp : p ∈ c.parents) (h : GitRepository.ReachableFrom repo p b) :
      GitRepository.ReachableFrom repo a b

/-- An oid is reachable from the repository's head. -/
def GitRepository.ReachableFromHead (repo : GitRepository) (oid : String) : Prop :=
  ∃ h, repo.head = some h ∧ repo.ReachableFrom h oid

/-- Soundness of the `git2` revwalk, as guaranteed by the library: every
oid it yields is reachable from the pushed head. Stated as a hypothesis
on the modelled repository. -/
def GitRepository.WalkSound (repo : GitRepository) : Prop :=
  ∀ walk oid, repo.revwalk_from_head = some walk → some oid ∈ walk →
    repo.ReachableFromHead oid

/-! Concrete repositories used to instantiate the theorems. -/

/-- A root commit (no parents) with a full set of fields. -/
def cA : Commit :=
  { id := "a", parents := [], author_name := some "Alice", author_when := 100,
    message := some "  Fix bug  \n" }

/-- A merge commit (two parents) with absent author name and message. -/
def cM : Commit :=
  { id := "m", parents := ["p", "q"], author_name := none, author_when := 0,
    message := none }

/-- A commit whose author timestamp lies outside chrono's representable
range. -/
def cFar : Commit :=
  { id := "f", parents := [], author_name := some "Bob", author_when := 9000000000000,
    message := some "far" }

/-- A one-commit repository: head `"a"`, history `[cA]`. -/
def R1 : GitRepository :=
  { head := some "a"
  , find_commit := fun oid => if oid = "a" then some cA else none
  , revwalk_from_head := some [some "a"]
  , revparse_single := fun s =>
      if s = "a" then some { peel_to_commit := some cA } else none }

/-- A repository whose entire reachable history is the merge commit
`cM`. -/
def R2 : GitRepository :=
  { head := some "m"
  , find_commit := fun oid => if oid = "m" then some cM else none
  , revwalk_from_head := some [some "m"]
  , revparse_single := fun _ => none }

/-- Like `R1` but the walk also yields the oid `"zz"` whose commit
lookup fails. -/
def R3 : GitRepository :=
  { head := some "a"
  , find_commit := fun oid => if oid = "a" then some cA else none
  , revwalk_from_head := some [some "a", some "zz"]
  , revparse_single := fun _ => none }

/-! Helper lemmas shared by the claim theorems. -/

/-- `slice_choose` only returns elements of the slice. -/
theorem slice_choose_mem {α : Type} {l : List α} {i : Nat} {a : α}
    (h : slice_choose l i = some a) : a ∈ l := by
  unfold slice_choose at h
  split at h
  · cases h
  · exact List.getElem?_mem h

/-- `slice_choose` fails exactly on the empty slice. -/
theorem slice_choose_eq_none {α : Type} (l : List α) (i : Nat) :
    slice_choose l i = none ↔ l = [] := by
  unfold slice_choose
  by_cases h : l.isEmpty
  · simp [h, List.isEmpty_iff.mp h]
  · have hpos : 0 < l.length := by
      cases l with
      | nil => simp at h
      | cons a t => simp
    simp [h, List.getElem?_eq_getElem (Nat.mod_lt i hpos)]
    intro hnil
    rw [hnil] at hpos
    simp at hpos

/-- Membership in the materialized eligible set. -/
theorem mem_non_merge_commits {repo : GitRepository} {walk : List (Option String)}
    {oid : String} :
    oid ∈ repo.non_merge_commits walk ↔ some oid ∈ walk ∧ repo.eligible oid = true := by
  simp only [GitRepository.non_merge_commits, List.mem_filter, List.mem_filterMap, id]
  constructor
  · rintro ⟨⟨a, ha, rfl⟩, he⟩
    exact ⟨ha, he⟩
  · rintro ⟨hm, he⟩
    exact ⟨⟨some oid, hm, rfl⟩, he⟩

/-! Claim theorems. -/

/-- Claim C3: for every revision specifier, `get_commit` fails with
`CommitResolutionError` when the specifier resolves to no object, fails
with `NotACommitError` when the resolved object cannot be peeled to a
commit, and otherwise returns the extracted metadata of the peeled
commit. -/
theorem get_commit_error_taxonomy :
    ∀ (repo : GitRepository) (hash : String) (now : Int),
      (repo.revparse_single hash = none →
        repo.get_commit hash now = Except.error GitError.CommitResolutionError) ∧
      (∀ obj, repo.revparse_single hash = some obj →
        obj.peel_to_commit = none →
        repo.get_commit hash now = Except.error GitError.NotACommitError) ∧
      (∀ obj c, repo.revparse_single hash = some obj →
        obj.peel_to_commit = some c →
        repo.get_commit hash now =
          Except.ok (GitRepository.extract_metadata c now)) := by
  intro repo hash now
  refine ⟨fun h => ?_, fun obj h1 h2 => ?_, fun obj c h1 h2 => ?_⟩
  · simp [GitRepository.get_commit, h]
  · simp [GitRepository.get_commit, h1, h2]
  · simp [GitRepository.get_commit, h1, h2]

/-- Witness for C3: in `R1` the specifier `"zzz"` resolves to nothing. -/
theorem get_commit_error_taxonomy_witness :
    R1.get_commit "zzz" 0 = Except.error GitError.CommitResolutionError :=
  (get_commit_error_taxonomy R1 "zzz" 0).1 rfl

/-- Claim C4: whenever a specifier (e.g. a valid full or abbreviated
hash) resolves to an object that peels to a commit, `get_commit`
returns metadata whose `hash` field is the full canonical string form
of that commit's oid. -/
theorem get_commit_hash_is_canonical :
    ∀ (repo : GitRepository) (hash : String) (now : Int)
      (obj : GitObject) (c : Commit),
      repo.revparse_single hash = some obj →
      obj.peel_to_commit = some c →
      ∃ md, repo.get_commit hash now = Except.ok md ∧ md.hash = c.id := by
  intro repo hash now obj c h1 h2
  exact ⟨GitRepository.extract_metadata c now,
    by simp [GitRepository.get_commit, h1, h2], rfl⟩

/-- Witness for C4: looking up `"a"` in `R1` yields metadata with hash
`cA.id`. -/
theorem get_commit_hash_is_canonical_witness :
    ∃ md, R1.get_commit "a" 0 = Except.ok md ∧ md.hash = cA.id :=
  get_commit_hash_is_canonical R1 "a" 0 { peel_to_commit := some cA } cA rfl rfl

/-- Claim C5: `extract_metadata` returns the author's display name, or
the literal `"Unknown"` when the name is absent, and the message with
leading and trailing whitespace removed, or `""` when no message is
present. -/
theorem extract_metadata_author_and_message :
    ∀ (c : Commit) (now : Int),
      (∀ n, c.author_name = some n →
        (GitRepository.extract_metadata c now).author = n) ∧
      (c.author_name = none →
        (GitRepository.extract_metadata c now).author = "Unknown") ∧
      (∀ m, c.message = some m →
        (GitRepository.extract_metadata c now).message = rust_trim m) ∧
      (c.message = none →
        (GitRepository.extract_metadata c now).message = "") := by
  intro c now
  refine ⟨fun n h => ?_, fun h => ?_, fun m h => ?_, fun h => ?_⟩ <;>
    (simp [GitRepository.extract_metadata, h]; try rfl)

/-- Witness for C5: the spec's round-trip example (author `"Alice"`,
message `"  Fix bug  \n"`) and the absent-name/absent-message cases. -/
theorem extract_metadata_author_and_message_witness :
    ((GitRepository.extract_metadata cA 0).author = "Alice" ∧
      (GitRepository.extract_metadata cA 0).message = rust_trim "  Fix bug  \n" ∧
      rust_trim "  Fix bug  \n" = "Fix bug") ∧
    ((GitRepository.extract_metadata cM 0).author = "Unknown" ∧
      (GitRepository.extract_metadata cM 0).message = "") :=
  ⟨⟨(extract_metadata_author_and_message cA 0).1 "Alice" rfl,
    (extract_metadata_author_and_message cA 0).2.2.1 "  Fix bug  \n" rfl,
    by decide⟩,
   ⟨(extract_metadata_author_and_message cM 0).2.1 rfl,
    (extract_metadata_author_and_message cM 0).2.2.2 rfl⟩⟩

/-- Claim C6: `extract_metadata` never fails (it is a total function);
its `date` is the author timestamp whenever chrono can convert it, and
the supplied wall-clock `now` when the conversion fails. -/
theorem extract_metadata_date_fallback :
    ∀ (c : Commit) (now : Int),
      (∀ t, datetime_from_timestamp c.author_when = some t →
        (GitRepository.extract_metadata c now).date = t ∧ t = c.author_when) ∧
      (datetime_from_timestamp c.author_when = none →
        (GitRepository.extract_metadata c now).date = now) := by
  intro c now
  constructor
  · intro t ht
    have ht' : t = c.author_when := by
      unfold datetime_from_timestamp at ht
      split at ht
      · exact (Option.some.inj ht).symm
      · cases ht
    exact ⟨by simp [GitRepository.extract_metadata, ht], ht'⟩
  · intro ht
    simp [GitRepository.extract_metadata, ht]

/-- Witness for C6: `cA`'s timestamp (100) converts and is returned;
`cFar`'s timestamp is out of range, so `now = 5` is substituted. -/
theorem extract_metadata_date_fallback_witness :
    ((GitRepository.extract_metadata cA 0).date = 100 ∧
      (100 : Int) = cA.author_when) ∧
    (GitRepository.extract_metadata cFar 5).date = 5 :=
  ⟨(extract_metadata_date_fallback cA 0).1 100 (by decide),
   (extract_metadata_date_fallback cFar 5).2 (by decide)⟩

/-- Claim C2: `random_commit` fails with `NoEligibleCommitsError` if and
only if the walk starts and the materialized eligible set is empty; in
particular it fails this way on a repository whose entire reachable
history consists of merge commits. -/
theorem random_commit_no_eligible_iff :
    (∀ (repo : GitRepository) (i : Nat) (now : Int),
      repo.random_commit i now = Except.error GitError.NoEligibleCommitsError ↔
        ∃ walk, repo.revwalk_from_head = some walk ∧
          repo.non_merge_commits walk = []) ∧
    (∀ (repo : GitRepository) (walk : List (Option String)) (i : Nat) (now : Int),
      repo.revwalk_from_head = some walk →
      (∀ oid c, some oid ∈ walk → repo.find_commit oid = some c →
        2 ≤ c.parents.length) →
      repo.random_commit i now = Except.error GitError.NoEligibleCommitsError) := by
  constructor
  · intro repo i now
    constructor
    · intro h
      cases hrv : repo.revwalk_from_head with
      | none => simp [GitRepository.random_commit, hrv] at h
      | some walk =>
        refine ⟨walk, rfl, ?_⟩
        simp only [GitRepository.random_commit, hrv] at h
        cases he : (repo.non_merge_commits walk).isEmpty with
        | true => exact List.isEmpty_iff.mp he
        | false =>
          exfalso
          rw [he] at h
          simp only [Bool.false_eq_true, if_false] at h
          cases hc : slice_choose (repo.non_merge_commits walk) i with
          | none => rw [hc] at h; simp at h
          | some oid =>
            rw [hc] at h
            have h2 : repo.find_and_extract oid now =
                Except.error GitError.NoEligibleCommitsError := h
            unfold GitRepository.find_and_extract at h2
            cases hf : repo.find_commit oid with
            | none => rw [hf] at h2; simp at h2
            | some c => rw [hf] at h2; simp at h2
    · rintro ⟨walk, hw, hnil⟩
      simp [GitRepository.random_commit, hw, hnil]
  · intro repo walk i now hw hmerge
    have hnil : repo.non_merge_commits walk = [] := by
      rw [List.eq_nil_iff_forall_not_mem]
      intro oid hmem
      rcases mem_non_merge_commits.mp hmem with ⟨hm, he⟩
      unfold GitRepository.eligible at he
      cases hf : repo.find_commit oid with
      | none => rw [hf] at he; cases he
      | some c =>
        rw [hf] at he
        have h2 := hmerge oid c hm hf
        simp at he
        omega
    simp [GitRepository.random_commit, hw, hnil]

/-- Witness for C2: `R2`'s whole history is the merge commit `cM`, and
`random_commit` fails with `NoEligibleCommitsError` there. -/
theorem random_commit_no_eligible_iff_witness :
    R2.random_commit 0 0 = Except.error GitError.NoEligibleCommitsError :=
  random_commit_no_eligible_iff.2 R2 [some "m"] 0 0 rfl (by
    intro oid c hm hf
    simp at hm
    subst hm
    simp [R2] at hf
    subst hf
    decide)

/-- Claim C9: the `SelectionError` branch is unreachable: `random_commit`
never returns `SelectionError`, because the selection step is only
reached with a non-empty eligible set, on which selection always
produces an element. -/
theorem random_commit_selection_error_unreachable :
    ∀ (repo : GitRepository) (i : Nat) (now : Int),
      (repo.random_commit i now = Except.error GitError.SelectionError) = False := by
  intro repo i now
  rw [eq_iff_iff, iff_false]
  intro h
  cases hrv : repo.revwalk_from_head with
  | none => simp [GitRepository.random_commit, hrv] at h
  | some walk =>
    simp only [GitRepository.random_commit, hrv] at h
    cases he : (repo.non_merge_commits walk).isEmpty with
    | true => rw [he] at h; simp at h
    | false =>
      rw [he] at h
      simp only [Bool.false_eq_true, if_false] at h
      cases hc : slice_choose (repo.non_merge_commits walk) i with
      | none =>
        have hnil := (slice_choose_eq_none (repo.non_merge_commits walk) i).mp hc
        rw [hnil] at he
        simp at he
      | some oid =>
        rw [hc] at h
        have h2 : repo.find_and_extract oid now =
            Except.error GitError.SelectionError := h
        unfold GitRepository.find_and_extract at h2
        cases hf : repo.find_commit oid with
        | none => rw [hf] at h2; simp at h2
        | some c => rw [hf] at h2; simp at h2

/-- Claim C8: selection is uniform over the materialized eligible set:
for every index `i` below the set's size produced by the randomness
source, the `i`-th eligible commit is the one selected (and then
resolved and extracted). -/
theorem random_commit_picks_indexed_element :
    ∀ (repo : GitRepository) (walk : List (Option String)) (i : Nat) (now : Int),
      repo.revwalk_from_head = some walk →
      ∀ hi : i < (repo.non_merge_commits walk).length,
      repo.random_commit i now =
        repo.find_and_extract ((repo.non_merge_commits walk).get ⟨i, hi⟩) now := by
  intro repo walk i now hw hi
  have hne : (repo.non_merge_commits walk).isEmpty = false := by
    cases hl : repo.non_merge_commits walk with
    | nil => rw [hl] at hi; simp at hi
    | cons a t => rfl
  have hch : slice_choose (repo.non_merge_commits walk) i =
      some ((repo.non_merge_commits walk).get ⟨i, hi⟩) := by
    unfold slice_choose
    rw [hne]
    simp [Nat.mod_eq_of_lt hi, List.getElem?_eq_getElem hi, List.get_eq_getElem]
  simp [GitRepository.random_commit, hw, hne, hch]

/-- Witness for C8: in `R1` the eligible set is `["a"]` and index 0
selects `"a"`. -/
theorem random_commit_picks_indexed_element_witness :
    R1.random_commit 0 0 = R1.find_and_extract "a" 0 :=
  random_commit_picks_indexed_element R1 [some "a"] 0 0 rfl (by decide)

/-- Claim C10: once an oid has been chosen, the result is exactly the
final re-resolution step's result, and a failing final lookup yields
`FindCommitError` to the caller — no skipping or retrying with another
eligible commit. -/
theorem random_commit_final_lookup_error_propagates :
    (∀ (repo : GitRepository) (walk : List (Option String)) (i : Nat) (now : Int)
      (oid : String),
      repo.revwalk_from_head = some walk →
      slice_choose (repo.non_merge_commits walk) i = some oid →
      repo.random_commit i now = repo.find_and_extract oid now) ∧
    (∀ (repo : GitRepository) (oid : String) (now : Int),
      repo.find_commit oid = none →
      repo.find_and_extract oid now = Except.error GitError.FindCommitError) := by
  constructor
  · intro repo walk i now oid hw hc
    have hne : (repo.non_merge_commits walk).isEmpty = false := by
      cases hl : repo.non_merge_commits walk with
      | nil => rw [hl] at hc; simp [slice_choose] at hc
      | cons a t => rfl
    simp [GitRepository.random_commit, hw, hne, hc]
  · intro repo oid now hf
    simp [GitRepository.find_and_extract, hf]

/-- Witness for C10: in `R3` the final lookup of the unknown oid `"zz"`
propagates `FindCommitError`, and the chosen oid `"a"` flows into the
final lookup step. -/
theorem random_commit_final_lookup_error_propagates_witness :
    R3.find_and_extract "zz" 0 = Except.error GitError.FindCommitError ∧
    R3.random_commit 0 7 = R3.find_and_extract "a" 7 :=
  ⟨random_commit_final_lookup_error_propagates.2 R3 "zz" 0 rfl,
   random_commit_final_lookup_error_propagates.1 R3 [some "a", some "zz"] 0 7 "a"
     rfl (by decide)⟩

/-- Drop from a walk's item list the entries carrying a given oid. -/
def drop_oid (walk : List (Option String)) (bad : String) : List (Option String) :=
  walk.filter (fun x => decide (x ≠ some bad))

/-- Removing from the walk the entries carrying an oid the filter
already rejects does not change the filtered result. -/
theorem filterMap_id_filter_drop_rejected (p : String → Bool) (bad : String)
    (hbad : p bad = false) (walk : List (Option String)) :
    (walk.filterMap id).filter p =
      (((drop_oid walk bad)).filterMap id).filter p := by
  unfold drop_oid
  induction walk with
  | nil => rfl
  | cons a t ih =>
    cases a with
    | none => simpa using ih
    | some s =>
      by_cases hs : s = bad
      · subst hs
        simp [hbad, ih]
      · simp [hs, List.filter_cons, ih]

/-- Claim C7: a per-commit lookup failure during the eligibility filter
excludes only that single oid: it is not in the eligible set, the
eligible set is unchanged if the failing entries are removed from the
walk, and `random_commit`'s outcome on the repository equals its
outcome with those walk entries removed — the walk is not aborted and
the operation does not fail because of the lookup failure. -/
theorem filter_lookup_failure_excludes_only_that_oid :
    ∀ (repo : GitRepository) (walk : List (Option String)) (bad : String)
      (i : Nat) (now : Int),
      repo.find_commit bad = none →
      repo.revwalk_from_head = some walk →
      bad ∉ repo.non_merge_commits walk ∧
      repo.non_merge_commits walk = repo.non_merge_commits (drop_oid walk bad) ∧
      repo.random_commit i now =
        GitRepository.random_commit
          { repo with revwalk_from_head := some (drop_oid walk bad) } i now := by
  intro repo walk bad i now hbad hw
  have hel : repo.eligible bad = false := by
    unfold GitRepository.eligible
    rw [hbad]
  have h2 : repo.non_merge_commits walk =
      repo.non_merge_commits (drop_oid walk bad) :=
    filterMap_id_filter_drop_rejected repo.eligible bad hel walk
  refine ⟨?_, h2, ?_⟩
  · intro hmem
    have := (mem_non_merge_commits.mp hmem).2
    rw [hel] at this
    cases this
  · have hwalk' : (GitRepository.mk repo.head repo.find_commit
        (some (drop_oid walk bad))
        repo.revparse_single).non_merge_commits (drop_oid walk bad) =
        repo.non_merge_commits walk := by
      rw [h2]
      rfl
    show _ = GitRepository.random_commit
        (GitRepository.mk repo.head repo.find_commit
          (some (drop_oid walk bad))
          repo.revparse_single) i now
    unfold GitRepository.random_commit
    rw [hw]
    simp only
    rw [hwalk']
    rfl

/-- Witness for C7: in `R3` the oid `"zz"` has a failing lookup; it is
excluded from the eligible set and removing it from the walk leaves
`random_commit`'s outcome unchanged. -/
theorem filter_lookup_failure_excludes_only_that_oid_witness :
    "zz" ∉ R3.non_merge_commits [some "a", some "zz"] ∧
    R3.non_merge_commits [some "a", some "zz"] =
      R3.non_merge_commits (drop_oid [some "a", some "zz"] "zz") ∧
    R3.random_commit 0 0 =
      GitRepository.random_commit
        { R3 with revwalk_from_head := some (drop_oid [some "a", some "zz"] "zz") }
        0 0 :=
  filter_lookup_failure_excludes_only_that_oid R3 [some "a", some "zz"] "zz" 0 0
    rfl rfl

/-- Claim C1: assuming the revwalk is sound (every yielded oid is
reachable from head, the `git2` guarantee), a successful `random_commit`
returns the metadata of a reachable commit with at most one parent —
never a merge commit (2+ parents); and root commits (zero parents) pass
the eligibility test. -/
theorem random_commit_reachable_non_merge :
    (∀ (repo : GitRepository) (i : Nat) (now : Int) (md : CommitMetadata),
      repo.WalkSound →
      repo.random_commit i now = Except.ok md →
      ∃ oid c, repo.ReachableFromHead oid ∧ repo.find_commit oid = some c ∧
        c.parents.length ≤ 1 ∧ ¬2 ≤ c.parents.length ∧
        md = GitRepository.extract_metadata c now) ∧
    (∀ (repo : GitRepository) (oid : String) (c : Commit),
      repo.find_commit oid = some c → c.parents = [] →
      repo.eligible oid = true) := by
  constructor
  · intro repo i now md hs hok
    cases hrv : repo.revwalk_from_head with
    | none => simp [GitRepository.random_commit, hrv] at hok
    | some walk =>
      simp only [GitRepository.random_commit, hrv] at hok
      cases he : (repo.non_merge_commits walk).isEmpty with
      | true => rw [he] at hok; simp at hok
      | false =>
        rw [he] at hok
        simp only [Bool.false_eq_true, if_false] at hok
        cases hc : slice_choose (repo.non_merge_commits walk) i with
        | none => rw [hc] at hok; simp at hok
        | some oid =>
          rw [hc] at hok
          have h2 : repo.find_and_extract oid now = Except.ok md := hok
          have hmem := slice_choose_mem hc
          rcases mem_non_merge_commits.mp hmem with ⟨hm, hel⟩
          unfold GitRepository.find_and_extract at h2
          cases hf : repo.find_commit oid with
          | none => rw [hf] at h2; simp at h2
          | some c =>
            rw [hf] at h2
            simp only [Except.ok.injEq] at h2
            refine ⟨oid, c, hs walk oid hrv hm, hf, ?_, ?_, h2.symm⟩
            · unfold GitRepository.eligible at hel
              rw [hf] at hel
              simpa using hel
            · unfold GitRepository.eligible at hel
              rw [hf] at hel
              simp at hel
              omega
  · intro repo oid c hf hroot
    unfold GitRepository.eligible
    rw [hf]
    simp [hroot]

/-- The walk of `R1` is sound: its only yielded oid is the head
itself. -/
theorem R1_walkSound : R1.WalkSound := by
  intro walk oid hw hmem
  have hwalk : walk = [some "a"] := by
    have : some [some "a"] = some walk := hw
    exact (Option.some.inj this).symm
  subst hwalk
  simp at hmem
  subst hmem
  exact ⟨"a", rfl, GitRepository.ReachableFrom.refl "a"⟩

/-- Witness for C1: running `random_commit` on `R1` yields the metadata
of the reachable root commit `cA`. -/
theorem random_commit_reachable_non_merge_witness :
    ∃ oid c, R1.ReachableFromHead oid ∧ R1.find_commit oid = some c ∧
      c.parents.length ≤ 1 ∧ ¬2 ≤ c.parents.length ∧
      GitRepository.extract_metadata cA 0 = GitRepository.extract_metadata c 0 :=
  random_commit_reachable_non_merge.1 R1 0 0 (GitRepository.extract_metadata cA 0)
    R1_walkSound rfl
